import Mathlib

/-!
# Batch verification front end (`src/js/main.js`)

A shallow embedding of the identifier extractor, the result list, the
server-sent-event handlers and the stream reading loop of `main.js`,
followed by the properties proved about them.

Conventions of the embedding:

* a JavaScript string is a list of characters (`Str`);
* a value produced by `JSON.parse` is a `JVal`; `undefined` (an absent
  property) is `none`;
* `JSON.parse` itself is a function of the platform, not of the program: the
  definitions take it as the parameter `parse`, where `none` stands for a
  thrown `SyntaxError`;
* everything the network delivers (token page, batch response, chunks) is an
  explicit input, and every call the program makes is recorded in a trace.
-/

namespace BatchVerify

/-- A JavaScript string, as the list of its characters. -/
abbrev Str := List Char

/-! ## String primitives -/

/-- The characters removed by `String.prototype.trim`: ECMAScript `WhiteSpace`
and `LineTerminator`. -/
def isWhiteSpace (c : Char) : Bool :=
  let n := c.toNat
  n == 0x09 || n == 0x0A || n == 0x0B || n == 0x0C || n == 0x0D || n == 0x20 ||
  n == 0xA0 || n == 0x1680 || (0x2000 ≤ n && n ≤ 0x200A) || n == 0x2028 ||
  n == 0x2029 || n == 0x202F || n == 0x205F || n == 0x3000 || n == 0xFEFF

/-- The method `s.trim()`. -/
def trim (s : Str) : Str :=
  ((s.dropWhile isWhiteSpace).reverse.dropWhile isWhiteSpace).reverse

/-- The method `s.split(sep)` for a one-character separator: never empty, and
the last piece is what follows the last separator. -/
def split (sep : Char) : Str → List Str
  | [] => [[]]
  | c :: cs =>
    if c = sep then [] :: split sep cs
    else
      match split sep cs with
      | [] => [[c]]
      | l :: ls => (c :: l) :: ls

/-- The method `parts.join(sep)` for a one-character separator. -/
def join (sep : Char) : List Str → Str
  | [] => []
  | [l] => l
  | l :: l' :: ls => l ++ sep :: join sep (l' :: ls)

/-- Truthiness of a string: it is not empty. -/
def truthyStr (s : Str) : Bool := !s.isEmpty

/-! ## The four URL patterns of `extractVerificationIds` -/

/-- The class `[a-zA-Z0-9_-]`. Under the `i` flag the class gains nothing:
canonicalisation never maps a character outside ASCII into ASCII. -/
def isTokenChar (c : Char) : Bool :=
  let n := c.toNat
  (97 ≤ n && n ≤ 122) || (65 ≤ n && n ≤ 90) || (48 ≤ n && n ≤ 57) || n == 95 || n == 45

/-- Canonicalisation of the `i` flag on the code of a character: ASCII
lower-case letters fold to upper case, every other character is unchanged as
far as a comparison with an ASCII pattern character goes. -/
def canonCode (c : Char) : Nat :=
  let n := c.toNat
  if 97 ≤ n ∧ n ≤ 122 then n - 32 else n

/-- The literal part `lit` of a pattern matches at the very start of `s`,
ignoring ASCII case. -/
def startsWithCI : Str → Str → Bool
  | [], _ => true
  | _ :: _, [] => false
  | p :: ps, c :: cs => canonCode p == canonCode c && startsWithCI ps cs

/-- An attempt of the pattern `/lit([a-zA-Z0-9_-]+)/i` at the start of `s`: the
literal, then the longest non-empty run of token characters, which is capture
group 1. -/
def matchHere (lit s : Str) : Option Str :=
  if startsWithCI lit s then
    let cap := (s.drop lit.length).takeWhile isTokenChar
    if cap.isEmpty then none else some cap
  else none

/-- The value `s.match(/lit([a-zA-Z0-9_-]+)/i)`, reduced to capture group 1:
the leftmost position at which the pattern matches decides. -/
def regexMatch (lit : Str) : Str → Option Str
  | [] => matchHere lit []
  | c :: cs =>
    match matchHere lit (c :: cs) with
    | some cap => some cap
    | none => regexMatch lit cs

/-- The array `urlPatterns`, each pattern given by its literal part. -/
def urlPatterns : List Str :=
  ["verificationId=".toList, "verification_id=".toList, "vid=".toList, "/verify/".toList]

/-- The inner loop `for (const pattern of urlPatterns)`: the capture of the
first pattern that matches, `none` when `extracted` stays `null`. -/
def firstMatch : List Str → Str → Option Str
  | [], _ => none
  | p :: ps, trimmed =>
    match regexMatch p trimmed with
    | some cap => some cap
    | none => firstMatch ps trimmed

/-- The identifier pushed for one trimmed line: `extracted || trimmed`. -/
def lineId (trimmed : Str) : Str :=
  match firstMatch urlPatterns trimmed with
  | some extracted => if truthyStr extracted then extracted else trimmed
  | none => trimmed

/-- The expression `[...new Set(ids)]`: the elements in insertion order, an
element already in the set is not inserted again. -/
def newSet (ids : List Str) : List Str :=
  ids.foldl (fun acc x => if x ∈ acc then acc else acc ++ [x]) []

/-- The function `extractVerificationIds(input)`. -/
def extractVerificationIds (input : Str) : List Str :=
  let lines := (split '\n' input).filter (fun line => truthyStr (trim line))
  let ids := lines.foldl
    (fun ids line =>
      let trimmed := trim line
      if !truthyStr trimmed then ids else ids ++ [lineId trimmed]) []
  newSet ids

/-! ## JavaScript values -/

/-- A number produced by `JSON.parse`: a finite value, or an infinity (a
literal too large for a double). `NaN` cannot come out of JSON. -/
inductive JNum
  | finite (q : Rat)
  | infinity (negative : Bool)
  deriving DecidableEq

/-- A JavaScript value as this program meets it: what `JSON.parse` produces,
and `undefined`, the value of an absent property. The properties of an object
are its own properties, each key once. -/
inductive JVal
  | undefined
  | null
  | bool (b : Bool)
  | num (n : JNum)
  | str (s : Str)
  | arr (items : List JVal)
  | obj (props : List (Str × JVal))

/-- Truthiness of a value (`ToBoolean`). -/
def truthy : JVal → Bool
  | .undefined => false
  | .null => false
  | .bool b => b
  | .num (.finite q) => decide (q ≠ 0)
  | .num (.infinity _) => true
  | .str s => truthyStr s
  | .arr _ => true
  | .obj _ => true

/-- Strict equality `a === b`. Primitives compare by value. Arrays and objects
compare by identity, and every array or object this program holds is the
result of its own `JSON.parse` call, so two of them met by `===` are never
identical. -/
def strictEq : JVal → JVal → Bool
  | .undefined, .undefined => true
  | .null, .null => true
  | .bool a, .bool b => a == b
  | .num a, .num b => decide (a = b)
  | .str a, .str b => decide (a = b)
  | _, _ => false

/-- The property read `data.key` on a value other than `null` and `undefined`,
for the keys `handleSSEData` reads (none of them is defined on a
prototype). -/
def prop (data : JVal) (key : Str) : JVal :=
  match data with
  | .obj props =>
    match props.find? (fun p => p.1 == key) with
    | some p => p.2
    | none => .undefined
  | _ => .undefined

/-- The operator `a || b`. -/
def orElse (a b : JVal) : JVal := if truthy a then a else b

/-- The test `v !== undefined`. -/
def isDefined : JVal → Bool
  | .undefined => false
  | _ => true

/-! ## Page state -/

/-- One entry of `state.results`. -/
structure ResultRecord where
  id : JVal
  status : Str
  message : JVal

/-- The object `state`. `abortController` tells whether a controller is
installed (`true`) or the field is `null`. -/
structure State where
  apiKey : Str
  isProcessing : Bool
  results : List ResultRecord
  abortController : Bool

/-- The part of the document the modelled functions write. `quotaInfo` is the
text of the quota element once it has been written; `resultsView` is the list
`renderResults` painted last and `renderCount` how often it ran. -/
structure Dom where
  statusBadgeClass : Str
  statusText : Str
  startBtnDisabled : Bool
  startBtnText : Str
  quotaInfo : Option Str
  emptyStateHidden : Bool
  resultsView : List ResultRecord
  renderCount : Nat

/-- A call of `fetch`. -/
inductive Request
  | getUpstream
  | postBatch (csrfToken : Str) (hCaptchaToken : Str) (verificationIds : List Str)

/-- Everything the modelled functions read and write: `state`, the document,
the token cache kept on `window`, and the trace of `alert` and `fetch`
calls. -/
structure Client where
  state : State
  dom : Dom
  csrfToken : Option Str
  csrfTokenTime : Option Int
  alerts : List Str
  requests : List Request

/-- The function `updateStatus(status, text)`. -/
def updateStatus (status text : Str) (c : Client) : Client :=
  { c with dom := { c.dom with
      statusBadgeClass := "status-badge ".toList ++ status
      statusText := text } }

/-- The function `renderResults()`. -/
def renderResults (c : Client) : Client :=
  { c with dom := { c.dom with
      emptyStateHidden := !c.state.results.isEmpty
      resultsView := c.state.results
      renderCount := c.dom.renderCount + 1 } }

/-- The call `results.findIndex(r => r.id === id)`; `none` is `-1`. -/
def findIndex (results : List ResultRecord) (id : JVal) : Option Nat :=
  match results with
  | [] => none
  | r :: rs => if strictEq r.id id then some 0 else (findIndex rs id).map (· + 1)

/-- The function `addResult(id, status, message)`. -/
def addResult (id : JVal) (status : Str) (message : JVal) (c : Client) : Client :=
  let results :=
    match findIndex c.state.results id with
    | some existingIndex => c.state.results.set existingIndex ⟨id, status, message⟩
    | none => c.state.results ++ [⟨id, status, message⟩]
  renderResults { c with state := { c.state with results := results } }

/-! ## Event handlers -/

/-- The block `if (data.verificationId) { ... }` of `handleSSEData`. -/
def resultBlock (data : JVal) (c : Client) : Client :=
  if truthy (prop data "verificationId".toList) then
    let status :=
      if strictEq (prop data "currentStep".toList) (.str "success".toList) then
        "success".toList
      else if strictEq (prop data "currentStep".toList) (.str "error".toList) then
        "error".toList
      else "processing".toList
    let message :=
      orElse (orElse (prop data "message".toList) (prop data "currentStep".toList))
        (.str "未知".toList)
    addResult (prop data "verificationId".toList) status message c
  else c

/-- The block `if (data.current_quota !== undefined) { ... }` of
`handleSSEData`; `none` when the string conversion throws. -/
def quotaBlock (toText : JVal → Option Str) (data : JVal) (c : Client) : Option Client :=
  if isDefined (prop data "current_quota".toList) then
    match toText (prop data "current_quota".toList) with
    | none => none
    | some t => some { c with dom := { c.dom with quotaInfo := some ("配额: ".toList ++ t) } }
  else some c

/-- The last two blocks of `handleSSEData`, which only write to the console:
whether their string conversions go through. -/
def logBlocks (toText : JVal → Option Str) (data : JVal) : Bool :=
  let startLog : Bool :=
    if isDefined (prop data "total".toList) && isDefined (prop data "cost".toList) then
      (toText (prop data "total".toList)).isSome && (toText (prop data "cost".toList)).isSome
    else true
  let endLog : Bool :=
    if isDefined (prop data "completed".toList) then
      (toText (prop data "completed".toList)).isSome &&
        (toText (prop data "total".toList)).isSome
    else true
  startLog && endLog

/-- The value is `null` or `undefined`: reading a property of it throws. -/
def isNullish : JVal → Bool
  | .null => true
  | .undefined => true
  | _ => false

/-- The function `handleSSEData(data)`. `toText` is the string conversion of a
template literal, `none` when it throws. The result is the client state when
the function exits and whether it exits by throwing. -/
def handleSSEData (toText : JVal → Option Str) (data : JVal) (c : Client) : Client × Bool :=
  if isNullish data then (c, true)
  else
    let c1 := resultBlock data c
    match quotaBlock toText data c1 with
    | none => (c1, true)
    | some c2 => (c2, !logBlocks toText data)

/-- The function `handleSSEEvent(eventType)`. -/
def handleSSEEvent (eventType : Str) (c : Client) : Client :=
  if eventType = "start".toList then updateStatus "processing".toList "验证中...".toList c
  else if eventType = "end".toList then updateStatus [] "完成".toList c
  else c

/-! ## The stream reading loop -/

/-- A call of one of the two stream handlers, with its argument. -/
inductive SSECall
  | data (payload : JVal)
  | event (eventType : Str)

/-- The body of `for (const line of lines)`: the handler call one complete line
leads to, if any. A `data: ` line whose remainder `JSON.parse` rejects leads to
none (the `catch` only writes to the console). -/
def lineCall (parse : Str → Option JVal) (line : Str) : Option SSECall :=
  if "data: ".toList.isPrefixOf line then
    match parse (line.drop 6) with
    | some data => some (.data data)
    | none => none
  else if "event: ".toList.isPrefixOf line then
    some (.event (trim (line.drop 7)))
  else none

/-- The loop `for (const line of lines)`, over any handler state `σ`. -/
def processLines {σ : Type} (parse : Str → Option JVal) (handle : SSECall → σ → σ)
    (lines : List Str) (s : σ) : σ :=
  lines.foldl
    (fun s line =>
      match lineCall parse line with
      | some call => handle call s
      | none => s) s

/-- One round of `while (true)` after a successful `reader.read()`: `value` is
the decoded chunk, the state is the local `buffer` and the handler state. -/
def readChunk {σ : Type} (parse : Str → Option JVal) (handle : SSECall → σ → σ)
    (st : Str × σ) (value : Str) : Str × σ :=
  let buffer := st.1 ++ value
  let lines := split '\n' buffer
  let popped := lines.getLast?
  let lines := lines.dropLast
  let buffer :=
    match popped with
    | some last => if truthyStr last then last else []
    | none => []
  (buffer, processLines parse handle lines st.2)

/-- The loop `while (true)` from `let buffer = ''` until the reader stops
delivering chunks: the leftover `buffer` and the handler state. -/
def readLoop {σ : Type} (parse : Str → Option JVal) (handle : SSECall → σ → σ)
    (chunks : List Str) (s : σ) : Str × σ :=
  chunks.foldl (readChunk parse handle) ([], s)

/-- The handlers as the loop calls them: `handleSSEData` inside `try`, whose
`catch` keeps what was written before a throw, and `handleSSEEvent`. -/
def dispatch (toText : JVal → Option Str) : SSECall → Client → Client
  | .data payload, c => (handleSSEData toText payload c).1
  | .event eventType, c => handleSSEEvent eventType c

/-- A handler that only records the calls, in order. -/
def record (call : SSECall) (log : List SSECall) : List SSECall := log ++ [call]

/-- The handler calls of a stream and its leftover buffer. -/
def streamCalls (parse : Str → Option JVal) (chunks : List Str) : Str × List SSECall :=
  readLoop parse record chunks []

/-! ## Network and `startVerification` -/

/-- A thrown error: its `name` and `message`. -/
structure JsError where
  name : Str
  message : Str

/-- The response of `POST /api/batch`: `status` is the status code as the
template literal prints it; `chunks` are the decoded chunks the reader
delivers, after which it reports `done` (`failure = none`) or `read()` rejects
(an abort or a transport error). -/
structure BatchResponse where
  ok : Bool
  status : Str
  statusText : Str
  chunks : List Str
  failure : Option JsError

/-- What the outside world answers during one call of `startVerification`:
`upstream` is `none` when `fetch('/upstream/')` rejects, else `response.ok` and
the body (`none` when `text()` rejects); `batch` is the error when the batch
`fetch` rejects. -/
structure World where
  nowAtCheck : Int
  nowAtStore : Int
  upstream : Option (Bool × Option Str)
  batch : Except JsError BatchResponse

/-- The attempt of `/CSRF_TOKEN\s*=\s*["']([^"']+)["']/` at the start of `s`,
reduced to capture group 1. -/
def csrfHere (s : Str) : Option Str :=
  if "CSRF_TOKEN".toList.isPrefixOf s then
    match (s.drop 10).dropWhile isWhiteSpace with
    | [] => none
    | e :: r =>
      if e = '=' then
        match r.dropWhile isWhiteSpace with
        | [] => none
        | q :: body =>
          if q = '"' ∨ q = Char.ofNat 39 then
            let cap := body.takeWhile (fun ch => !(ch == '"' || ch == Char.ofNat 39))
            match body.drop cap.length with
            | [] => none
            | _ :: _ => if cap.isEmpty then none else some cap
          else none
      else none
  else none

/-- The value `html.match(...)` of `getCsrfToken`, reduced to capture group 1. -/
def csrfMatch : Str → Option Str
  | [] => none
  | ch :: rest =>
    match csrfHere (ch :: rest) with
    | some cap => some cap
    | none => csrfMatch rest

/-- The function `getCsrfToken()`: the client afterwards and the token. -/
def getCsrfToken (w : World) (c : Client) : Client × Str :=
  let cached : Option Str :=
    match c.csrfToken, c.csrfTokenTime with
    | some tok, some t =>
      if truthyStr tok && decide (t ≠ 0) && decide (w.nowAtCheck - t < 300000) then some tok
      else none
    | _, _ => none
  match cached with
  | some tok => (c, tok)
  | none =>
    let c1 := { c with requests := c.requests ++ [Request.getUpstream] }
    match w.upstream with
    | some (true, some html) =>
      match csrfMatch html with
      | some tok =>
        if truthyStr tok then
          ({ c1 with csrfToken := some tok, csrfTokenTime := some w.nowAtStore }, tok)
        else (c1, [])
      | none => (c1, [])
    | _ => (c1, [])

/-- The `catch (error)` block of `startVerification`. -/
def catchBlock (error : JsError) (c : Client) : Client :=
  if error.name = "AbortError".toList then c
  else { c with alerts := c.alerts ++ ["验证请求失败: ".toList ++ error.message] }

/-- The `finally` block of `startVerification`. -/
def finallyBlock (c : Client) : Client :=
  let c1 := { c with state := { c.state with isProcessing := false, abortController := false } }
  let c2 := updateStatus [] "就绪".toList c1
  { c2 with dom := { c2.dom with startBtnDisabled := false, startBtnText := "▶ 开始验证".toList } }

/-- The `try` block of `startVerification`: the client when the block is left,
the error if it is left by a throw, and the local `buffer` at that moment. -/
def tryBlock (parse : Str → Option JVal) (toText : JVal → Option Str) (w : World)
    (ids : List Str) (c : Client) : Client × Option JsError × Str :=
  let (c1, csrfToken) := getCsrfToken w c
  let c2 := { c1 with state := { c1.state with abortController := true } }
  let c3 := { c2 with
    requests := c2.requests ++ [Request.postBatch csrfToken c2.state.apiKey ids] }
  match w.batch with
  | .error e => (c3, some e, [])
  | .ok response =>
    if !response.ok then
      (c3, some ⟨"Error".toList,
        "HTTP ".toList ++ response.status ++ ": ".toList ++ response.statusText⟩, [])
    else
      let (buffer, c4) := readLoop parse (dispatch toText) response.chunks c3
      (c4, response.failure, buffer)

/-- The function `startVerification(ids)`, run to completion against the
answers of `w`: the client afterwards and the local `buffer` as the reading
loop left it (empty when the loop was not reached). -/
def startVerification (parse : Str → Option JVal) (toText : JVal → Option Str) (w : World)
    (ids : List Str) (c : Client) : Client × Str :=
  if !truthyStr c.state.apiKey then
    ({ c with alerts := c.alerts ++ ["请先设置 API Key".toList] }, [])
  else if ids.length == 0 then
    ({ c with alerts := c.alerts ++ ["请输入验证 ID".toList] }, [])
  else
    let c1 := { c with state := { c.state with isProcessing := true } }
    let c2 := updateStatus "processing".toList "验证中...".toList c1
    let c3 := { c2 with dom := { c2.dom with
      startBtnDisabled := true, startBtnText := "⏳ 处理中...".toList } }
    let c4 := ids.foldl
      (fun c id => addResult (.str id) "processing".toList (.str "处理中...".toList) c) c3
    let (c5, thrown, buffer) := tryBlock parse toText w ids c4
    let c6 :=
      match thrown with
      | some error => catchBlock error c5
      | none => c5
    (finallyBlock c6, buffer)

/-! ## Specification-side definitions -/

/-- The per-line identifiers of an input, in the words of the specification:
the non-blank lines in input order, each trimmed and mapped to its
identifier. -/
def perLineIds (input : Str) : List Str :=
  ((split '\n' input).filter (fun line => decide (trim line ≠ []))).map
    (fun line => lineId (trim line))

/-- A list with every occurrence after the first removed, in the words of the
specification. -/
def firstOccurrences : List Str → List Str
  | [] => []
  | x :: xs => x :: (firstOccurrences xs).filter (fun y => decide (y ≠ x))

/-- The pattern with literal part `lit` matches `s` at the offset `pre.length`
and captures `cap`: the text at that offset is the literal up to ASCII case,
then `cap`, a non-empty run of token characters that the next character, if
any, does not continue. -/
def CapturesAt (lit s pre cap : Str) : Prop :=
  ∃ l post, s = pre ++ (l ++ (cap ++ post)) ∧ l.map canonCode = lit.map canonCode ∧
    cap ≠ [] ∧ (∀ ch ∈ cap, isTokenChar ch = true) ∧ (∀ ch ∈ post.head?, isTokenChar ch = false)

/-- The text of a whole stream: its chunks, one after the other. -/
def concat : List Str → Str
  | [] => []
  | chunk :: rest => chunk ++ concat rest

/-- The complete lines of a text, in the words of the specification: the
pieces between newlines, without what follows the last newline. -/
def completeLines (text : Str) : List Str := (split '\n' text).dropLast

/-- The calls a list of complete lines leads to, in order. -/
def callsOf (parse : Str → Option JVal) (lines : List Str) : List SSECall :=
  lines.filterMap (lineCall parse)

/-- The platform's `JSON.parse` on the payload texts of the worked examples;
used where a concrete parser is needed, and `none` on every other text. -/
def sampleParse (text : Str) : Option JVal :=
  if text = "\x7b\"a\":1\x7d".toList then
    some (.obj [("a".toList, .num (.finite 1))])
  else if text = "\x7b\"verificationId\":\"A\",\"currentStep\":\"success\"\x7d".toList then
    some (.obj [("verificationId".toList, .str "A".toList),
      ("currentStep".toList, .str "success".toList)])
  else if text = "\x7b\"current_quota\":5\x7d".toList then
    some (.obj [("current_quota".toList, .num (.finite 5))])
  else none

/-- The platform's string conversion inside a template literal, on the values
of the worked examples: strings, whole numbers, booleans, `null` and
`undefined`; used where a concrete conversion is needed. -/
def sampleText : JVal → Option Str
  | .undefined => some "undefined".toList
  | .null => some "null".toList
  | .bool b => some (if b then "true".toList else "false".toList)
  | .str s => some s
  | .num (.finite q) => if q.den = 1 then some (toString q.num).toList else none
  | _ => none

/-- A client on which nothing has happened yet: the given API key, no result,
no cached token, empty traces. -/
def freshClient (apiKey : Str) : Client :=
  { state := { apiKey := apiKey, isProcessing := false, results := [], abortController := false }
    dom :=
      { statusBadgeClass := "status-badge".toList
        statusText := "就绪".toList
        startBtnDisabled := false
        startBtnText := "▶ 开始验证".toList
        quotaInfo := none
        emptyStateHidden := false
        resultsView := []
        renderCount := 0 }
    csrfToken := none
    csrfTokenTime := none
    alerts := []
    requests := [] }

/-- A sequence of `addResult` calls with one and the same `id`, each with its
own status and message. -/
def addResults (id : JVal) (calls : List (Str × JVal)) (c : Client) : Client :=
  calls.foldl (fun c call => addResult id call.1 call.2 c) c

/-- The identifiers of a result list, in order. -/
def idsOf (results : List ResultRecord) : List JVal := results.map (fun r => r.id)

/-- No two entries of a list of identifiers are strictly equal. -/
def Distinct (ids : List JVal) : Prop := ids.Pairwise (fun a b => strictEq a b = false)

/-- A world in which the token page cannot be fetched and the batch request
is answered with the given chunks, after which the stream completes. -/
def streamWorld (chunks : List Str) : World :=
  { nowAtCheck := 0
    nowAtStore := 0
    upstream := none
    batch := .ok { ok := true, status := "200".toList, statusText := "OK".toList,
                   chunks := chunks, failure := none } }

/-- A client holding the given result list and the API key `key`, otherwise
fresh. -/
def clientWith (results : List ResultRecord) : Client :=
  { freshClient "key".toList with
    state := { apiKey := "key".toList, isProcessing := false, results := results,
               abortController := false } }

/-! ## Lemmas on `newSet` -/

theorem newSet_fold (l acc : List Str) :
    l.foldl (fun acc x => if x ∈ acc then acc else acc ++ [x]) acc
      = acc ++ (firstOccurrences l).filter (fun y => decide (y ∉ acc)) := by
  induction l generalizing acc with
  | nil => simp [firstOccurrences]
  | cons x xs ih =>
    simp only [List.foldl_cons, firstOccurrences]
    by_cases hx : x ∈ acc
    · rw [if_pos hx, ih, List.filter_cons_of_neg (by simpa using hx), List.filter_filter]
      congr 1
      apply List.filter_congr
      intro y _
      by_cases hy : y ∈ acc
      · simp [hy]
      · have : y ≠ x := fun h => hy (h ▸ hx)
        simp [hy, this]
    · rw [if_neg hx, ih, List.filter_cons_of_pos (by simpa using hx), List.filter_filter,
        List.append_assoc, List.singleton_append]
      congr 2
      apply List.filter_congr
      intro y _
      by_cases hy : y ∈ acc <;> by_cases hyx : y = x <;> simp [hy, hyx]

theorem newSet_eq_firstOccurrences (l : List Str) : newSet l = firstOccurrences l := by
  unfold newSet
  rw [newSet_fold]
  simp

theorem firstOccurrences_nodup (l : List Str) : (firstOccurrences l).Nodup := by
  induction l with
  | nil => simp [firstOccurrences]
  | cons x xs ih =>
    simp only [firstOccurrences, List.nodup_cons]
    exact ⟨by simp [List.mem_filter], ih.filter _⟩

theorem mem_firstOccurrences (l : List Str) (y : Str) : y ∈ firstOccurrences l ↔ y ∈ l := by
  induction l with
  | nil => simp [firstOccurrences]
  | cons x xs ih =>
    simp only [firstOccurrences, List.mem_cons, List.mem_filter, ih]
    by_cases h : y = x <;> simp [h]

theorem firstOccurrences_of_nodup (l : List Str) (h : l.Nodup) : firstOccurrences l = l := by
  induction l with
  | nil => rfl
  | cons x xs ih =>
    rw [List.nodup_cons] at h
    simp only [firstOccurrences, ih h.2]
    congr 1
    rw [List.filter_eq_self]
    intro y hy
    have : y ≠ x := fun e => h.1 (e ▸ hy)
    simpa using this

theorem extract_fold (lines acc : List Str) :
    lines.foldl
      (fun ids line =>
        let trimmed := trim line
        if !truthyStr trimmed then ids else ids ++ [lineId trimmed]) acc
      = acc ++ (lines.filter (fun line => decide (trim line ≠ []))).map
          (fun line => lineId (trim line)) := by
  induction lines generalizing acc with
  | nil => simp
  | cons l ls ih =>
    rw [List.foldl_cons, ih]
    by_cases h : trim l = []
    · simp [h, truthyStr]
    · have h2 : (trim l).isEmpty = false := by
        cases hl : trim l with
        | nil => exact absurd hl h
        | cons _ _ => rfl
      simp [h, truthyStr, h2]

theorem extract_eq (input : Str) :
    extractVerificationIds input = firstOccurrences (perLineIds input) := by
  unfold extractVerificationIds perLineIds
  simp only []
  rw [newSet_eq_firstOccurrences, extract_fold, List.nil_append, List.filter_filter]
  congr 2
  apply List.filter_congr
  intro l _
  cases hl : trim l <;> simp [truthyStr]

/-! ## Lemmas on the patterns -/

theorem startsWithCI_iff (lit s : Str) :
    startsWithCI lit s = true ↔
      ∃ l rest, s = l ++ rest ∧ l.map canonCode = lit.map canonCode := by
  induction lit generalizing s with
  | nil =>
    simp only [startsWithCI, List.map_nil, List.map_eq_nil_iff, true_iff]
    exact ⟨[], s, rfl, rfl⟩
  | cons p ps ih =>
    cases s with
    | nil =>
      simp only [startsWithCI, Bool.false_eq_true, false_iff]
      rintro ⟨l, rest, h, hl⟩
      cases l with
      | nil => simp at hl
      | cons _ _ => simp at h
    | cons c cs =>
      simp only [startsWithCI, Bool.and_eq_true, beq_iff_eq, ih]
      constructor
      · rintro ⟨hc, l, rest, rfl, hl⟩
        exact ⟨c :: l, rest, rfl, by simp [hl, hc]⟩
      · rintro ⟨l, rest, h, hl⟩
        cases l with
        | nil => simp at hl
        | cons x xs =>
          simp only [List.cons_append, List.cons.injEq] at h
          simp only [List.map_cons, List.cons.injEq] at hl
          obtain ⟨rfl, rfl⟩ := h
          exact ⟨hl.1.symm, xs, rest, rfl, hl.2⟩

theorem takeWhile_run (p : Char → Bool) (cap post : Str)
    (hcap : ∀ ch ∈ cap, p ch = true) (hpost : ∀ ch ∈ post.head?, p ch = false) :
    (cap ++ post).takeWhile p = cap := by
  induction cap with
  | nil =>
    cases post with
    | nil => rfl
    | cons x xs =>
      have := hpost x (by simp)
      simp [List.takeWhile_cons, this]
  | cons x xs ih =>
    have hx := hcap x (by simp)
    simp only [List.cons_append, List.takeWhile_cons, hx, if_true]
    rw [ih (fun ch h => hcap ch (List.mem_cons_of_mem _ h))]

theorem dropWhile_head (p : Char → Bool) (s : Str) : ∀ ch ∈ (s.dropWhile p).head?, p ch = false := by
  induction s with
  | nil => simp
  | cons x xs ih =>
    by_cases hx : p x = true
    · simpa [List.dropWhile_cons, hx] using ih
    · simp [List.dropWhile_cons, hx]

theorem matchHere_iff (lit s cap : Str) :
    matchHere lit s = some cap ↔ CapturesAt lit s [] cap := by
  unfold matchHere CapturesAt
  constructor
  · intro h
    split at h
    · rename_i hs
      obtain ⟨l, rest, rfl, hl⟩ := (startsWithCI_iff lit _).1 hs
      have hlen : lit.length = l.length := by
        have := congrArg List.length hl
        simpa using this.symm
      simp only [hlen, List.drop_left] at h
      split at h
      · exact absurd h (by simp)
      · rename_i hne
        simp only [Option.some.injEq] at h
        subst h
        refine ⟨l, rest.dropWhile isTokenChar, ?_, hl, ?_, ?_, dropWhile_head _ _⟩
        · simp [List.takeWhile_append_dropWhile]
        · intro h0
          exact hne (by simp [h0])
        · intro ch hch
          exact (List.mem_takeWhile_imp hch)
    · exact absurd h (by simp)
  · rintro ⟨l, post, rfl, hl, hne, hcap, hpost⟩
    have hs : startsWithCI lit ([] ++ (l ++ (cap ++ post))) = true :=
      (startsWithCI_iff lit _).2 ⟨l, cap ++ post, rfl, hl⟩
    have hlen : lit.length = l.length := by
      have := congrArg List.length hl
      simpa using this.symm
    rw [if_pos hs]
    simp only [List.nil_append, hlen, List.drop_left, takeWhile_run _ cap post hcap hpost]
    cases cap with
    | nil => exact absurd rfl hne
    | cons _ _ => rfl

theorem capturesAt_cons (lit : Str) (c : Char) (cs pre cap : Str) :
    CapturesAt lit (c :: cs) (c :: pre) cap ↔ CapturesAt lit cs pre cap := by
  unfold CapturesAt
  constructor
  · rintro ⟨l, post, h, rest⟩
    simp only [List.cons_append, List.cons.injEq, true_and] at h
    exact ⟨l, post, h, rest⟩
  · rintro ⟨l, post, h, rest⟩
    exact ⟨l, post, by simp [h], rest⟩

theorem capturesAt_head (lit s pre cap : Str) (h : CapturesAt lit s pre cap) :
    ∃ rest, s = pre ++ rest := by
  obtain ⟨l, post, h, _⟩ := h
  exact ⟨_, h⟩

theorem regexMatch_none_iff (lit s : Str) :
    regexMatch lit s = none ↔ ∀ pre cap, ¬ CapturesAt lit s pre cap := by
  induction s with
  | nil =>
    simp only [regexMatch]
    constructor
    · intro h pre cap hc
      obtain ⟨rest, hr⟩ := capturesAt_head _ _ _ _ hc
      have : pre = [] := by
        cases pre with
        | nil => rfl
        | cons _ _ => simp at hr
      subst this
      rw [(matchHere_iff lit [] cap).2 hc] at h
      exact absurd h (by simp)
    · intro h
      cases hm : matchHere lit [] with
      | none => rfl
      | some cap => exact absurd ((matchHere_iff _ _ _).1 hm) (h [] cap)
  | cons c cs ih =>
    simp only [regexMatch]
    constructor
    · intro h pre cap hc
      cases hm : matchHere lit (c :: cs) with
      | some cap0 => rw [hm] at h; exact absurd h (by simp)
      | none =>
        rw [hm] at h
        cases pre with
        | nil =>
          rw [(matchHere_iff _ _ _).2 hc] at hm
          exact absurd hm (by simp)
        | cons x xs =>
          obtain ⟨rest, hr⟩ := capturesAt_head _ _ _ _ hc
          simp only [List.cons_append, List.cons.injEq] at hr
          obtain ⟨rfl, _⟩ := hr
          exact (ih.1 h) xs cap ((capturesAt_cons _ _ _ _ _).1 hc)
    · intro h
      cases hm : matchHere lit (c :: cs) with
      | some cap => exact absurd ((matchHere_iff _ _ _).1 hm) (h [] cap)
      | none =>
        simp only []
        exact ih.2 (fun pre cap hc => h (c :: pre) cap ((capturesAt_cons _ _ _ _ _).2 hc))

theorem regexMatch_some_iff (lit s cap : Str) :
    regexMatch lit s = some cap ↔
      ∃ pre, CapturesAt lit s pre cap ∧
        ∀ pre' cap', pre'.length < pre.length → ¬ CapturesAt lit s pre' cap' := by
  induction s with
  | nil =>
    simp only [regexMatch, matchHere_iff]
    constructor
    · intro h
      exact ⟨[], h, fun _ _ hlt => absurd hlt (by simp)⟩
    · rintro ⟨pre, hc, _⟩
      obtain ⟨rest, hr⟩ := capturesAt_head _ _ _ _ hc
      have : pre = [] := by
        cases pre with
        | nil => rfl
        | cons _ _ => simp at hr
      subst this
      exact hc
  | cons c cs ih =>
    simp only [regexMatch]
    cases hm : matchHere lit (c :: cs) with
    | some cap0 =>
      simp only [Option.some.injEq]
      constructor
      · rintro rfl
        exact ⟨[], (matchHere_iff _ _ _).1 hm, fun _ _ hlt => absurd hlt (by simp)⟩
      · rintro ⟨pre, hc, hmin⟩
        cases pre with
        | nil =>
          have := (matchHere_iff _ _ _).2 hc
          rw [hm] at this
          exact Option.some.inj this
        | cons x xs =>
          exact absurd ((matchHere_iff _ _ _).1 hm) (hmin [] cap0 (by simp))
    | none =>
      simp only []
      rw [ih]
      constructor
      · rintro ⟨pre, hc, hmin⟩
        refine ⟨c :: pre, (capturesAt_cons _ _ _ _ _).2 hc, ?_⟩
        intro pre' cap' hlt hc'
        cases pre' with
        | nil =>
          rw [(matchHere_iff _ _ _).2 hc'] at hm
          exact absurd hm (by simp)
        | cons x xs =>
          obtain ⟨rest, hr⟩ := capturesAt_head _ _ _ _ hc'
          simp only [List.cons_append, List.cons.injEq] at hr
          obtain ⟨rfl, _⟩ := hr
          exact hmin xs cap' (by simpa using hlt) ((capturesAt_cons _ _ _ _ _).1 hc')
      · rintro ⟨pre, hc, hmin⟩
        cases pre with
        | nil =>
          rw [(matchHere_iff _ _ _).2 hc] at hm
          exact absurd hm (by simp)
        | cons x xs =>
          obtain ⟨rest, hr⟩ := capturesAt_head _ _ _ _ hc
          simp only [List.cons_append, List.cons.injEq] at hr
          obtain ⟨rfl, _⟩ := hr
          refine ⟨xs, (capturesAt_cons _ _ _ _ _).1 hc, ?_⟩
          intro pre' cap' hlt hc'
          exact hmin (c :: pre') cap' (by simpa using hlt) ((capturesAt_cons _ _ _ _ _).2 hc')

theorem firstMatch_of_first (ps : List Str) (t cap p : Str) (k : Nat)
    (hk : ps[k]? = some p) (hm : regexMatch p t = some cap)
    (hprev : ∀ j q, j < k → ps[j]? = some q → regexMatch q t = none) :
    firstMatch ps t = some cap := by
  induction ps generalizing k with
  | nil => simp at hk
  | cons q qs ih =>
    cases k with
    | zero =>
      simp only [List.getElem?_cons_zero, Option.some.injEq] at hk
      subst hk
      simp [firstMatch, hm]
    | succ k =>
      have hq : regexMatch q t = none := hprev 0 q (Nat.succ_pos k) (by simp)
      simp only [firstMatch, hq]
      apply ih k (by simpa using hk)
      intro j r hj hr
      exact hprev (j + 1) r (Nat.succ_lt_succ hj) (by simpa using hr)

theorem firstMatch_none (ps : List Str) (t : Str) (h : ∀ q ∈ ps, regexMatch q t = none) :
    firstMatch ps t = none := by
  induction ps with
  | nil => rfl
  | cons q qs ih =>
    simp only [firstMatch, h q (by simp)]
    exact ih (fun r hr => h r (List.mem_cons_of_mem _ hr))

theorem first_exists (ps : List Str) (t : Str) (h : ∃ p ∈ ps, regexMatch p t ≠ none) :
    ∃ (k : Nat) (p cap : Str), ps[k]? = some p ∧ regexMatch p t = some cap ∧
      ∀ (j : Nat) (q : Str), j < k → ps[j]? = some q → regexMatch q t = none := by
  induction ps with
  | nil => simp at h
  | cons q qs ih =>
    cases hq : regexMatch q t with
    | some cap => exact ⟨0, q, cap, by simp, hq, fun j _ hj => absurd hj (Nat.not_lt_zero j)⟩
    | none =>
      have h2 : ∃ p ∈ qs, regexMatch p t ≠ none := by
        obtain ⟨p, hp, hne⟩ := h
        rcases List.mem_cons.1 hp with rfl | hp
        · exact absurd hq hne
        · exact ⟨p, hp, hne⟩
      obtain ⟨k, p, cap, hk, hm, hprev⟩ := ih h2
      refine ⟨k + 1, p, cap, by simpa using hk, hm, ?_⟩
      intro j r hj hr
      cases j with
      | zero =>
        simp only [List.getElem?_cons_zero, Option.some.injEq] at hr
        subst hr
        exact hq
      | succ j => exact hprev j r (Nat.lt_of_succ_lt_succ hj) (by simpa using hr)

theorem capture_shorter (lit s pre cap : Str) (hlit : lit ≠ []) (h : CapturesAt lit s pre cap) :
    cap.length < s.length := by
  obtain ⟨l, post, rfl, hl, _⟩ := h
  have hlen : l.length = lit.length := by simpa using congrArg List.length hl
  have : 0 < lit.length := List.length_pos.2 hlit
  simp only [List.length_append]
  omega

theorem urlPatterns_ne_nil : ∀ p ∈ urlPatterns, p ≠ [] := by decide

theorem lineId_of_first (t cap p : Str) (k : Nat)
    (hk : urlPatterns[k]? = some p) (hm : regexMatch p t = some cap)
    (hprev : ∀ j q, j < k → urlPatterns[j]? = some q → regexMatch q t = none) :
    lineId t = cap ∧ cap ≠ [] ∧ (∀ ch ∈ cap, isTokenChar ch = true) ∧
      cap.length < t.length ∧ lineId t ≠ t ∧
      ∃ pre, CapturesAt p t pre cap ∧
        ∀ pre' cap', pre'.length < pre.length → ¬ CapturesAt p t pre' cap' := by
  obtain ⟨pre, hc, hmin⟩ := (regexMatch_some_iff _ _ _).1 hm
  have hne : cap ≠ [] := by
    obtain ⟨_, _, _, _, h, _⟩ := hc
    exact h
  have htok : ∀ ch ∈ cap, isTokenChar ch = true := by
    obtain ⟨_, _, _, _, _, h, _⟩ := hc
    exact h
  have hp : p ∈ urlPatterns := List.getElem?_mem hk
  have hlen := capture_shorter p t pre cap (urlPatterns_ne_nil p hp) hc
  have hid : lineId t = cap := by
    unfold lineId
    rw [firstMatch_of_first urlPatterns t cap p k hk hm hprev]
    cases cap with
    | nil => exact absurd rfl hne
    | cons _ _ => rfl
  refine ⟨hid, hne, htok, hlen, ?_, pre, hc, hmin⟩
  rw [hid]
  intro h
  rw [h] at hlen
  exact Nat.lt_irrefl _ hlen

theorem lineId_of_none (t : Str) (h : ∀ p ∈ urlPatterns, regexMatch p t = none) :
    lineId t = t := by
  unfold lineId
  rw [firstMatch_none urlPatterns t h]

/-! ## Lemmas on `split`, `join` and `trim` -/

theorem split_ne_nil (sep : Char) (s : Str) : split sep s ≠ [] := by
  induction s with
  | nil => simp [split]
  | cons c cs ih =>
    simp only [split]
    split
    · simp
    · split <;> simp

theorem split_no_sep (sep : Char) (s : Str) : ∀ l ∈ split sep s, sep ∉ l := by
  induction s with
  | nil => simp [split]
  | cons c cs ih =>
    intro l hl
    simp only [split] at hl
    split at hl
    · rcases List.mem_cons.1 hl with rfl | h
      · simp
      · exact ih l h
    · rename_i hc
      split at hl
      · simp only [List.mem_singleton] at hl
        subst hl
        simpa using Ne.symm hc
      · rename_i l0 ls heq
        rcases List.mem_cons.1 hl with rfl | h
        · have := ih l0 (by rw [heq]; simp)
          simp only [List.mem_cons, not_or]
          exact ⟨Ne.symm hc, this⟩
        · exact ih l (by rw [heq]; exact List.mem_cons_of_mem _ h)

theorem split_of_not_mem (sep : Char) (l : Str) (h : sep ∉ l) : split sep l = [l] := by
  induction l with
  | nil => rfl
  | cons c cs ih =>
    simp only [List.mem_cons, not_or] at h
    simp only [split, if_neg (Ne.symm h.1), ih h.2]

theorem split_append_sep (sep : Char) (l r : Str) (h : sep ∉ l) :
    split sep (l ++ sep :: r) = l :: split sep r := by
  induction l with
  | nil => simp [split]
  | cons c cs ih =>
    simp only [List.mem_cons, not_or] at h
    rw [List.cons_append, split, if_neg (Ne.symm h.1), ih h.2]

theorem split_join (sep : Char) (ls : List Str) (hne : ls ≠ []) (h : ∀ l ∈ ls, sep ∉ l) :
    split sep (join sep ls) = ls := by
  induction ls with
  | nil => exact absurd rfl hne
  | cons l rest ih =>
    cases rest with
    | nil => simpa [join] using split_of_not_mem sep l (h l (by simp))
    | cons l' ls =>
      simp only [join]
      rw [split_append_sep sep l _ (h l (by simp)),
        ih (by simp) (fun x hx => h x (List.mem_cons_of_mem _ hx))]

theorem trim_of_clean (s : Str) (h1 : ∀ ch ∈ s.head?, isWhiteSpace ch = false)
    (h2 : ∀ ch ∈ s.getLast?, isWhiteSpace ch = false) : trim s = s := by
  have hd : s.dropWhile isWhiteSpace = s := by
    cases s with
    | nil => rfl
    | cons x xs => simp [List.dropWhile_cons, h1 x (by simp)]
  show (s.dropWhile isWhiteSpace).rdropWhile isWhiteSpace = s
  rw [hd, List.rdropWhile_eq_self_iff]
  intro hl
  have := h2 (s.getLast hl) (by simp [List.getLast?_eq_getLast _ hl])
  simp [this]

theorem trim_head (s : Str) : ∀ ch ∈ (trim s).head?, isWhiteSpace ch = false := by
  intro ch hch
  have hpre : trim s <+: s.dropWhile isWhiteSpace :=
    List.rdropWhile_prefix isWhiteSpace (s.dropWhile isWhiteSpace)
  obtain ⟨t, ht⟩ := hpre
  cases hts : trim s with
  | nil => rw [hts] at hch; simp at hch
  | cons x xs =>
    rw [hts] at hch ht
    simp only [List.head?_cons, Option.mem_def, Option.some.injEq] at hch
    subst hch
    exact dropWhile_head isWhiteSpace s x (by rw [← ht]; simp)

theorem trim_last (s : Str) : ∀ ch ∈ (trim s).getLast?, isWhiteSpace ch = false := by
  intro ch hch
  by_cases hne : trim s = []
  · rw [hne] at hch; simp at hch
  · have := List.rdropWhile_last_not isWhiteSpace (s.dropWhile isWhiteSpace) hne
    rw [List.getLast?_eq_getLast _ hne] at hch
    simp only [Option.mem_def, Option.some.injEq] at hch
    subst hch
    simpa using this

theorem trim_trim (s : Str) : trim (trim s) = trim s :=
  trim_of_clean _ (trim_head s) (trim_last s)

theorem mem_trim (s : Str) (ch : Char) (h : ch ∈ trim s) : ch ∈ s :=
  (List.dropWhile_suffix _).subset
    ((List.rdropWhile_prefix isWhiteSpace (s.dropWhile isWhiteSpace)).subset h)

theorem token_not_space (ch : Char) (h : isTokenChar ch = true) : isWhiteSpace ch = false := by
  unfold isTokenChar at h
  unfold isWhiteSpace
  simp only [Bool.or_eq_true, Bool.and_eq_true, decide_eq_true_eq, beq_iff_eq] at h
  simp only [Bool.or_eq_false_iff, Bool.and_eq_false_iff, decide_eq_false_iff_not, beq_eq_false_iff_ne]
  omega

theorem token_ne_newline (ch : Char) (h : isTokenChar ch = true) : ch ≠ '\n' := by
  rintro rfl
  revert h
  decide

theorem token_canon (ch : Char) (h : isTokenChar ch = true) :
    canonCode ch ≠ 61 ∧ canonCode ch ≠ 47 := by
  unfold isTokenChar at h
  unfold canonCode
  simp only [Bool.or_eq_true, Bool.and_eq_true, decide_eq_true_eq, beq_iff_eq] at h
  simp only []
  split <;> omega

theorem trim_of_tokens (s : Str) (h : ∀ ch ∈ s, isTokenChar ch = true) : trim s = s := by
  apply trim_of_clean
  · intro ch hch
    exact token_not_space ch (h ch (List.mem_of_mem_head? hch))
  · intro ch hch
    exact token_not_space ch (h ch (List.mem_of_mem_getLast? hch))

theorem urlPatterns_sep : ∀ p ∈ urlPatterns, 61 ∈ p.map canonCode ∨ 47 ∈ p.map canonCode := by
  decide

theorem regexMatch_tokens (p s : Str) (hp : p ∈ urlPatterns)
    (h : ∀ ch ∈ s, isTokenChar ch = true) : regexMatch p s = none := by
  rw [regexMatch_none_iff]
  rintro pre cap ⟨l, post, rfl, hl, _⟩
  have key : ∀ n, n ∈ p.map canonCode → n ≠ 61 ∧ n ≠ 47 := by
    intro n hn
    rw [← hl, List.mem_map] at hn
    obtain ⟨x, hx, rfl⟩ := hn
    exact token_canon x (h x (by simp [hx]))
  rcases urlPatterns_sep p hp with h61 | h47
  · exact (key 61 h61).1 rfl
  · exact (key 47 h47).2 rfl

theorem lineId_tokens (s : Str) (h : ∀ ch ∈ s, isTokenChar ch = true) : lineId s = s :=
  lineId_of_none s (fun p hp => regexMatch_tokens p s hp h)

theorem firstMatch_mem (ps : List Str) (t cap : Str) (h : firstMatch ps t = some cap) :
    ∃ p ∈ ps, regexMatch p t = some cap := by
  induction ps with
  | nil => simp [firstMatch] at h
  | cons q qs ih =>
    simp only [firstMatch] at h
    cases hq : regexMatch q t with
    | some c =>
      rw [hq] at h
      exact ⟨q, by simp, by rw [hq]; exact h⟩
    | none =>
      rw [hq] at h
      obtain ⟨p, hp, hm⟩ := ih h
      exact ⟨p, List.mem_cons_of_mem _ hp, hm⟩

/-- An identifier that extraction maps to itself: it is not blank, holds no
newline, is its own trimmed form and its own line identifier. -/
theorem lineId_stable (l : Str) (hnl : '\n' ∉ l) (hne : trim l ≠ []) :
    lineId (trim l) ≠ [] ∧ '\n' ∉ lineId (trim l) ∧
      trim (lineId (trim l)) = lineId (trim l) ∧ lineId (lineId (trim l)) = lineId (trim l) := by
  cases hm : firstMatch urlPatterns (trim l) with
  | none =>
    have hid : lineId (trim l) = trim l := by simp [lineId, hm]
    rw [hid]
    exact ⟨hne, fun h => hnl (mem_trim l _ h), trim_trim l, hid⟩
  | some cap =>
    obtain ⟨p, hp, hr⟩ := firstMatch_mem _ _ _ hm
    obtain ⟨pre, ⟨_, _, _, _, hcne, htok, _⟩, _⟩ := (regexMatch_some_iff _ _ _).1 hr
    have hid : lineId (trim l) = cap := by
      cases cap with
      | nil => exact absurd rfl hcne
      | cons _ _ => simp [lineId, hm, truthyStr]
    rw [hid]
    exact ⟨hcne, fun h => token_ne_newline _ (htok _ h) rfl, trim_of_tokens cap htok,
      lineId_tokens cap htok⟩

theorem perLineIds_stable (input id : Str) (h : id ∈ perLineIds input) :
    id ≠ [] ∧ '\n' ∉ id ∧ trim id = id ∧ lineId id = id := by
  unfold perLineIds at h
  obtain ⟨l, hl, rfl⟩ := List.mem_map.1 h
  obtain ⟨hl1, hl2⟩ := List.mem_filter.1 hl
  exact lineId_stable l (split_no_sep '\n' input l hl1) (by simpa using hl2)

theorem perLineIds_join (out : List Str)
    (h : ∀ id ∈ out, id ≠ [] ∧ '\n' ∉ id ∧ trim id = id ∧ lineId id = id) :
    perLineIds (join '\n' out) = out := by
  cases out with
  | nil => decide
  | cons a as =>
    unfold perLineIds
    rw [split_join '\n' (a :: as) (by simp) (fun l hl => (h l hl).2.1)]
    have hf : (a :: as).filter (fun line => decide (trim line ≠ [])) = a :: as := by
      rw [List.filter_eq_self]
      intro l hl
      obtain ⟨h1, _, h3, _⟩ := h l hl
      rw [h3]
      simpa using h1
    rw [hf]
    calc (a :: as).map (fun line => lineId (trim line))
        = (a :: as).map id := by
          apply List.map_congr_left
          intro l hl
          obtain ⟨_, _, h3, h4⟩ := h l hl
          simp [h3, h4]
      _ = a :: as := List.map_id _

theorem perLineIds_single (id : Str)
    (h : id ≠ [] ∧ '\n' ∉ id ∧ trim id = id ∧ lineId id = id) : perLineIds id = [id] := by
  have := perLineIds_join [id] (by simpa using h)
  simpa [join] using this

/-! ## Lemmas on the reading loop -/

theorem split_append (sep : Char) (x y : Str) :
    split sep (x ++ y)
      = (split sep x).dropLast ++ split sep (((split sep x).getLast?).getD [] ++ y) := by
  induction x with
  | nil => simp [split]
  | cons c cs ih =>
    by_cases hc : c = sep
    · rw [List.cons_append, split, if_pos hc, ih, split, if_pos hc]
      cases hs : split sep cs with
      | nil => exact absurd hs (split_ne_nil sep cs)
      | cons l ls => simp [List.dropLast, List.getLast?_cons_cons]
    · rw [List.cons_append, split, if_neg hc, ih, split, if_neg hc]
      cases hs : split sep cs with
      | nil => exact absurd hs (split_ne_nil sep cs)
      | cons l ls =>
        cases ls with
        | nil =>
          simp only [List.dropLast, List.nil_append, List.getLast?_singleton, Option.getD_some,
            List.cons_append]
          rw [split, if_neg hc]
        | cons l' ls' => simp [List.dropLast, List.getLast?_cons_cons]

theorem split_last_no_sep (sep : Char) (s : Str) : sep ∉ ((split sep s).getLast?).getD [] := by
  cases h : (split sep s).getLast? with
  | none => simp
  | some l => exact split_no_sep sep s l (List.mem_of_mem_getLast? h)

theorem processLines_append {σ : Type} (parse : Str → Option JVal) (handle : SSECall → σ → σ)
    (xs ys : List Str) (s : σ) :
    processLines parse handle (xs ++ ys) s
      = processLines parse handle ys (processLines parse handle xs s) := by
  simp [processLines, List.foldl_append]

theorem readChunk_eq {σ : Type} (parse : Str → Option JVal) (handle : SSECall → σ → σ)
    (b : Str) (s : σ) (v : Str) :
    readChunk parse handle (b, s) v
      = (((split '\n' (b ++ v)).getLast?).getD [],
          processLines parse handle (split '\n' (b ++ v)).dropLast s) := by
  unfold readChunk
  simp only []
  congr 1
  cases h : (split '\n' (b ++ v)).getLast? with
  | none => rfl
  | some l =>
    cases l with
    | nil => rfl
    | cons _ _ => rfl

theorem readFold_eq {σ : Type} (parse : Str → Option JVal) (handle : SSECall → σ → σ)
    (chunks : List Str) (b : Str) (hb : '\n' ∉ b) (s : σ) :
    chunks.foldl (readChunk parse handle) (b, s)
      = (((split '\n' (b ++ concat chunks)).getLast?).getD [],
          processLines parse handle (split '\n' (b ++ concat chunks)).dropLast s) := by
  induction chunks generalizing b s with
  | nil => simp [concat, split_of_not_mem '\n' b hb, processLines]
  | cons v vs ih =>
    rw [List.foldl_cons, readChunk_eq, ih _ (split_last_no_sep '\n' (b ++ v))]
    have key := split_append '\n' (b ++ v) (concat vs)
    have hne := split_ne_nil '\n' (((split '\n' (b ++ v)).getLast?).getD [] ++ concat vs)
    simp only [concat, ← List.append_assoc]
    rw [key, List.getLast?_append_of_ne_nil _ hne, List.dropLast_append_of_ne_nil _ hne,
      processLines_append]

/-- The whole loop in closed form: it hands the complete lines of the stream
text to the handler and keeps what follows the last newline. -/
theorem readLoop_eq {σ : Type} (parse : Str → Option JVal) (handle : SSECall → σ → σ)
    (chunks : List Str) (s : σ) :
    readLoop parse handle chunks s
      = (((split '\n' (concat chunks)).getLast?).getD [],
          processLines parse handle (completeLines (concat chunks)) s) := by
  unfold readLoop completeLines
  rw [readFold_eq parse handle chunks [] (by simp) s]
  rfl

theorem processLines_record (parse : Str → Option JVal) (lines : List Str) (log : List SSECall) :
    processLines parse record lines log = log ++ callsOf parse lines := by
  induction lines generalizing log with
  | nil => simp [processLines, callsOf]
  | cons l ls ih =>
    have : processLines parse record (l :: ls) log
        = processLines parse record ls
            (match lineCall parse l with
              | some call => record call log
              | none => log) := rfl
    rw [this, ih]
    cases h : lineCall parse l with
    | none => simp [callsOf, List.filterMap_cons, h]
    | some call => simp [callsOf, List.filterMap_cons, h, record]

theorem split_terminated (P : Str) (hP : P = [] ∨ P.getLast? = some '\n') :
    ((split '\n' P).getLast?).getD [] = [] := by
  rcases hP with rfl | h
  · rfl
  · obtain ⟨Q, rfl⟩ : ∃ Q, P = Q ++ ['\n'] := by
      cases hP : P.reverse with
      | nil => simp at hP; subst hP; simp at h
      | cons x xs =>
        have hP2 : P = xs.reverse ++ [x] := by
          have := congrArg List.reverse hP
          simpa using this
        subst hP2
        simp at h
        subst h
        exact ⟨_, rfl⟩
    rw [split_append, split_append_sep '\n' _ [] (split_last_no_sep '\n' Q),
      List.getLast?_append_of_ne_nil _ (by simp)]
    simp [split]

/-! ## Lemmas on the result list -/

theorem strictEq_eq (a b : JVal) (h : strictEq a b = true) : a = b := by
  cases a <;> cases b <;> simp_all [strictEq]

theorem strictEq_self_of (a b : JVal) (h : strictEq a b = true) : strictEq b b = true := by
  have := strictEq_eq a b h
  subst this
  exact h

theorem addResult_results (id : JVal) (status : Str) (message : JVal) (c : Client) :
    (addResult id status message c).state.results
      = match findIndex c.state.results id with
        | some i => c.state.results.set i ⟨id, status, message⟩
        | none => c.state.results ++ [⟨id, status, message⟩] := rfl

theorem findIndex_none_iff (rs : List ResultRecord) (id : JVal) :
    findIndex rs id = none ↔ ∀ r ∈ rs, strictEq r.id id = false := by
  induction rs with
  | nil => simp [findIndex]
  | cons r rs ih =>
    simp only [findIndex, List.mem_cons, forall_eq_or_imp]
    by_cases h : strictEq r.id id = true
    · simp [h]
    · simp [h, ih]

theorem findIndex_some (rs : List ResultRecord) (id : JVal) (i : Nat)
    (h : findIndex rs id = some i) :
    ∃ r, rs[i]? = some r ∧ strictEq r.id id = true ∧
      ∀ j r', j < i → rs[j]? = some r' → strictEq r'.id id = false := by
  induction rs generalizing i with
  | nil => simp [findIndex] at h
  | cons r rs ih =>
    simp only [findIndex] at h
    by_cases hr : strictEq r.id id = true
    · simp only [hr, if_true, Option.some.injEq] at h
      subst h
      exact ⟨r, by simp, hr, fun j _ hj => absurd hj (Nat.not_lt_zero j)⟩
    · simp only [hr, Bool.false_eq_true, if_false, Option.map_eq_some'] at h
      obtain ⟨k, hk, rfl⟩ := h
      obtain ⟨r0, h0, h1, h2⟩ := ih k hk
      refine ⟨r0, by simpa using h0, h1, ?_⟩
      intro j r' hj hr'
      cases j with
      | zero =>
        simp only [List.getElem?_cons_zero, Option.some.injEq] at hr'
        subst hr'
        simpa using hr
      | succ j => exact h2 j r' (Nat.lt_of_succ_lt_succ hj) (by simpa using hr')

theorem findIndex_of_first (rs : List ResultRecord) (id : JVal) (i : Nat) (r : ResultRecord)
    (hi : rs[i]? = some r) (hr : strictEq r.id id = true)
    (hprev : ∀ j r', j < i → rs[j]? = some r' → strictEq r'.id id = false) :
    findIndex rs id = some i := by
  induction rs generalizing i with
  | nil => simp at hi
  | cons x xs ih =>
    cases i with
    | zero =>
      simp only [List.getElem?_cons_zero, Option.some.injEq] at hi
      subst hi
      simp [findIndex, hr]
    | succ i =>
      have hx : strictEq x.id id = false := hprev 0 x (Nat.succ_pos i) (by simp)
      simp only [findIndex, hx, Bool.false_eq_true, if_false]
      rw [ih i (by simpa using hi)
        (fun j r' hj hr' => hprev (j + 1) r' (Nat.succ_lt_succ hj) (by simpa using hr'))]
      rfl

theorem findIndex_of_distinct (rs : List ResultRecord) (id : JVal) (i : Nat) (r : ResultRecord)
    (hd : Distinct (idsOf rs)) (hi : rs[i]? = some r) (hr : strictEq r.id id = true) :
    findIndex rs id = some i := by
  apply findIndex_of_first rs id i r hi hr
  intro j r' hj hr'
  by_contra hne
  have hne : strictEq r'.id id = true := by simpa using hne
  have e1 := strictEq_eq _ _ hne
  have e2 := strictEq_eq _ _ hr
  have hself := strictEq_self_of _ _ hr
  have hpw := List.pairwise_iff_getElem.1 hd
  have hjl : j < (idsOf rs).length := by
    have := (List.getElem?_eq_some.1 hr').1
    simpa [idsOf] using this
  have hil : i < (idsOf rs).length := by
    have := (List.getElem?_eq_some.1 hi).1
    simpa [idsOf] using this
  have := hpw j i hjl hil hj
  have hj2 : (idsOf rs)[j] = r'.id := by
    have := (List.getElem?_eq_some.1 hr').2
    simp [idsOf, this]
  have hi2 : (idsOf rs)[i] = r.id := by
    have := (List.getElem?_eq_some.1 hi).2
    simp [idsOf, this]
  rw [hj2, hi2, e1, e2, hself] at this
  exact absurd this (by simp)

theorem findIndex_set (rs : List ResultRecord) (id : JVal) (i : Nat) (status : Str)
    (message : JVal) (h : findIndex rs id = some i) :
    findIndex (rs.set i ⟨id, status, message⟩) id = some i := by
  obtain ⟨r, hi, hr, hprev⟩ := findIndex_some rs id i h
  have hlt : i < rs.length := (List.getElem?_eq_some.1 hi).1
  apply findIndex_of_first _ id i ⟨id, status, message⟩
  · simp [List.getElem?_set_self, hlt]
  · exact strictEq_self_of _ _ hr
  · intro j r' hj hr'
    rw [List.getElem?_set_ne (Nat.ne_of_gt hj)] at hr'
    exact hprev j r' hj hr'

theorem findIndex_append (rs : List ResultRecord) (id : JVal) (status : Str) (message : JVal)
    (h : findIndex rs id = none) (hid : strictEq id id = true) :
    findIndex (rs ++ [⟨id, status, message⟩]) id = some rs.length := by
  apply findIndex_of_first _ id rs.length ⟨id, status, message⟩
  · simp
  · exact hid
  · intro j r' hj hr'
    rw [List.getElem?_append_left hj] at hr'
    exact (findIndex_none_iff rs id).1 h r' (List.getElem?_mem hr')

theorem addResults_present (id : JVal) (calls : List (Str × JVal)) (last : Str × JVal)
    (c : Client) (i : Nat) (hl : calls.getLast? = some last)
    (h : findIndex c.state.results id = some i) :
    (addResults id calls c).state.results = c.state.results.set i ⟨id, last.1, last.2⟩ := by
  induction calls generalizing c with
  | nil => simp at hl
  | cons x rest ih =>
    cases rest with
    | nil =>
      simp only [List.getLast?_singleton, Option.some.injEq] at hl
      subst hl
      simp [addResults, addResult_results, h]
    | cons y ys =>
      have hl2 : (y :: ys).getLast? = some last := by
        simpa [List.getLast?_cons_cons] using hl
      have step : addResults id (x :: y :: ys) c
          = addResults id (y :: ys) (addResult id x.1 x.2 c) := rfl
      have h1 : (addResult id x.1 x.2 c).state.results
          = c.state.results.set i ⟨id, x.1, x.2⟩ := by
        simp [addResult_results, h]
      rw [step, ih (addResult id x.1 x.2 c) hl2 (by rw [h1]; exact findIndex_set _ _ _ _ _ h), h1,
        List.set_set]

theorem addResults_absent (id : JVal) (calls : List (Str × JVal)) (last : Str × JVal)
    (c : Client) (hl : calls.getLast? = some last) (hid : strictEq id id = true)
    (h : findIndex c.state.results id = none) :
    (addResults id calls c).state.results = c.state.results ++ [⟨id, last.1, last.2⟩] := by
  cases calls with
  | nil => simp at hl
  | cons x rest =>
    have h1 : (addResult id x.1 x.2 c).state.results
        = c.state.results ++ [⟨id, x.1, x.2⟩] := by
      simp [addResult_results, h]
    cases rest with
    | nil =>
      simp only [List.getLast?_singleton, Option.some.injEq] at hl
      subst hl
      exact h1
    | cons y ys =>
      have hl2 : (y :: ys).getLast? = some last := by
        simpa [List.getLast?_cons_cons] using hl
      have step : addResults id (x :: y :: ys) c
          = addResults id (y :: ys) (addResult id x.1 x.2 c) := rfl
      rw [step, addResults_present id (y :: ys) last (addResult id x.1 x.2 c)
        c.state.results.length hl2 (by rw [h1]; exact findIndex_append _ _ _ _ h hid), h1]
      simp

theorem countP_one (ids : List JVal) (id a : JVal) (hd : Distinct ids) (ha : a ∈ ids)
    (hs : strictEq a id = true) : ids.countP (fun b => strictEq b id) = 1 := by
  induction ids with
  | nil => simp at ha
  | cons x xs ih =>
    have hd' := List.pairwise_cons.1 hd
    by_cases hx : strictEq x id = true
    · have hzero : xs.countP (fun b => strictEq b id) = 0 := by
        rw [List.countP_eq_zero]
        intro y hy hyid
        have e1 := strictEq_eq _ _ hx
        have e2 := strictEq_eq _ _ hyid
        have := hd'.1 y hy
        rw [e1, e2, strictEq_self_of _ _ hx] at this
        exact absurd this (by simp)
      rw [List.countP_cons, hzero]
      simp [hx]
    · have hmem : a ∈ xs := by
        rcases List.mem_cons.1 ha with rfl | h
        · exact absurd hs hx
        · exact h
      rw [List.countP_cons, ih hd'.2 hmem]
      simp [hx]

theorem idsOf_set (rs : List ResultRecord) (i : Nat) (r : ResultRecord) (status : Str)
    (message : JVal) (hi : rs[i]? = some r) :
    idsOf (rs.set i ⟨r.id, status, message⟩) = idsOf rs := by
  unfold idsOf
  rw [List.map_set]
  apply List.ext_getElem?
  intro j
  by_cases hj : i = j
  · subst hj
    obtain ⟨hlt, hget⟩ := List.getElem?_eq_some.1 hi
    simp [List.getElem?_set_self, hlt, hget]
  · rw [List.getElem?_set_ne hj]

theorem firstOccurrences_order (l : List Str) :
    ((firstOccurrences l).map (fun x => l.indexOf x)).Pairwise (· < ·) := by
  induction l with
  | nil => simp [firstOccurrences]
  | cons x xs ih =>
    have hne : ∀ y ∈ (firstOccurrences xs).filter (fun y => decide (y ≠ x)), x ≠ y := by
      intro y hy
      have := (List.mem_filter.1 hy).2
      exact fun e => (by simpa using this : y ≠ x) e.symm
    have hmap : ((firstOccurrences xs).filter (fun y => decide (y ≠ x))).map
          (fun y => (x :: xs).indexOf y)
        = (((firstOccurrences xs).filter (fun y => decide (y ≠ x))).map
            (fun y => xs.indexOf y)).map (· + 1) := by
      rw [List.map_map]
      apply List.map_congr_left
      intro y hy
      have hb : (x == y) = false := beq_eq_false_iff_ne.2 (hne y hy)
      simp [List.indexOf_cons, hb]
    simp only [firstOccurrences, List.map_cons, List.pairwise_cons]
    constructor
    · intro n hn
      obtain ⟨y, hy, rfl⟩ := List.mem_map.1 hn
      have hb : (x == y) = false := beq_eq_false_iff_ne.2 (hne y hy)
      simp [List.indexOf_cons, hb]
    · have hsub : List.Sublist
          (((firstOccurrences xs).filter (fun y => decide (y ≠ x))).map (fun y => xs.indexOf y))
          ((firstOccurrences xs).map (fun y => xs.indexOf y)) :=
        (List.filter_sublist _).map _
      rw [hmap]
      exact (ih.sublist hsub).map _ (fun a b hab => Nat.succ_lt_succ hab)

/-! ## Lemmas on the handlers -/

theorem prop_nullish (data : JVal) (key : Str) (h : isNullish data = true) :
    prop data key = .undefined := by
  cases data <;> simp_all [isNullish, prop]

theorem quotaBlock_frame (toText : JVal → Option Str) (data : JVal) (c c2 : Client)
    (h : quotaBlock toText data c = some c2) :
    c2.state = c.state ∧ c2.dom.renderCount = c.dom.renderCount ∧
      c2.dom.resultsView = c.dom.resultsView := by
  unfold quotaBlock at h
  split at h
  · split at h
    · exact absurd h (by simp)
    · simp only [Option.some.injEq] at h
      subst h
      exact ⟨rfl, rfl, rfl⟩
  · simp only [Option.some.injEq] at h
    subst h
    exact ⟨rfl, rfl, rfl⟩

/-- What `handleSSEData` does to `state` and to the rendering is what its first
block does. -/
theorem handleSSEData_core (toText : JVal → Option Str) (data : JVal) (c : Client) :
    (handleSSEData toText data c).1.state = (resultBlock data c).state ∧
    (handleSSEData toText data c).1.dom.renderCount = (resultBlock data c).dom.renderCount ∧
    (handleSSEData toText data c).1.dom.resultsView = (resultBlock data c).dom.resultsView := by
  unfold handleSSEData
  by_cases hn : isNullish data = true
  · have : resultBlock data c = c := by
      unfold resultBlock
      rw [prop_nullish data _ hn]
      rfl
    rw [if_pos hn, this]
    exact ⟨rfl, rfl, rfl⟩
  · rw [if_neg hn]
    simp only []
    cases hq : quotaBlock toText data (resultBlock data c) with
    | none => exact ⟨rfl, rfl, rfl⟩
    | some c2 => exact quotaBlock_frame toText data _ c2 hq

/-! ## Lemmas on `startVerification` -/

/-- C3. `extractVerificationIds` deduplicates and keeps the order of first
occurrence: its output has no repeated identifier, it is the list of the
per-line identifiers with every occurrence after the first removed, it holds
exactly the per-line identifiers, ordered by where each first occurs; the empty
input yields the empty list and the input of the scenario yields `ABC123`
followed by `XYZ`. -/
theorem extractVerificationIds_first_occurrences (input : Str) :
    (extractVerificationIds input).Nodup ∧
    extractVerificationIds input = firstOccurrences (perLineIds input) ∧
    (∀ id, id ∈ extractVerificationIds input ↔ id ∈ perLineIds input) ∧
    ((extractVerificationIds input).map (fun id => (perLineIds input).indexOf id)).Pairwise
      (· < ·) ∧
    extractVerificationIds [] = [] ∧
    extractVerificationIds "verificationId=ABC123\nXYZ\nverificationId=ABC123".toList
      = ["ABC123".toList, "XYZ".toList] := by
  refine ⟨?_, extract_eq input, ?_, ?_, by decide, by decide⟩
  · rw [extract_eq]
    exact firstOccurrences_nodup _
  · intro id
    rw [extract_eq]
    exact mem_firstOccurrences _ id
  · rw [extract_eq]
    exact firstOccurrences_order _

/-- C4. Pattern precedence in `extractVerificationIds`. The patterns are tried
in the order `verificationId=`, `verification_id=`, `vid=`, `/verify/`. When a
trimmed line matches at least one pattern, there is a first pattern that
matches and the identifier of the line is its capture; whichever pattern is
the first to match, wherever in the line it and the others occur, the
identifier is that capture: a non-empty run of token characters following the
leftmost occurrence of the literal, shorter than the line and so never the
line itself. A line matching no pattern is its own identifier. -/
theorem lineId_pattern_precedence (trimmed : Str) :
    urlPatterns = ["verificationId=".toList, "verification_id=".toList, "vid=".toList,
      "/verify/".toList] ∧
    ((∃ p ∈ urlPatterns, regexMatch p trimmed ≠ none) →
      ∃ (k : Nat) (p cap : Str), urlPatterns[k]? = some p ∧ regexMatch p trimmed = some cap ∧
        (∀ (j : Nat) (q : Str), j < k → urlPatterns[j]? = some q →
          regexMatch q trimmed = none) ∧
        lineId trimmed = cap) ∧
    (∀ (k : Nat) (p cap : Str), urlPatterns[k]? = some p → regexMatch p trimmed = some cap →
      (∀ (j : Nat) (q : Str), j < k → urlPatterns[j]? = some q → regexMatch q trimmed = none) →
      lineId trimmed = cap ∧ cap ≠ [] ∧ (∀ ch ∈ cap, isTokenChar ch = true) ∧
        cap.length < trimmed.length ∧ lineId trimmed ≠ trimmed ∧
        ∃ pre, CapturesAt p trimmed pre cap ∧
          ∀ pre' cap', pre'.length < pre.length → ¬ CapturesAt p trimmed pre' cap') ∧
    ((∀ p ∈ urlPatterns, regexMatch p trimmed = none) → lineId trimmed = trimmed) := by
  refine ⟨rfl, ?_, ?_, lineId_of_none trimmed⟩
  · intro h
    obtain ⟨k, p, cap, hk, hm, hprev⟩ := first_exists urlPatterns trimmed h
    exact ⟨k, p, cap, hk, hm, hprev, (lineId_of_first trimmed cap p k hk hm hprev).1⟩
  · intro k p cap hk hm hprev
    exact lineId_of_first trimmed cap p k hk hm hprev

/-- C4, at a line in which `vid=` occurs before `verificationId=`: the capture
of `verificationId=`, the first pattern of the list, is the identifier. -/
theorem lineId_pattern_precedence_witness :
    regexMatch "verificationId=".toList "vid=1&verificationId=2".toList = some "2".toList ∧
    regexMatch "vid=".toList "vid=1&verificationId=2".toList = some "1".toList ∧
    lineId "vid=1&verificationId=2".toList = "2".toList :=
  ⟨by decide, by decide,
    ((lineId_pattern_precedence "vid=1&verificationId=2".toList).2.2.1 0
      "verificationId=".toList "2".toList (by decide) (by decide)
      (fun j _ hj => absurd hj (Nat.not_lt_zero j))).1⟩

/-- C9. Extraction is idempotent: extracting from the newline-joined output of
an extraction gives that output again, and every identifier of the output,
taken as an input of its own, is extracted as itself. -/
theorem extractVerificationIds_idempotent (t : Str) :
    extractVerificationIds (join '\n' (extractVerificationIds t)) = extractVerificationIds t ∧
    ∀ id ∈ extractVerificationIds t, extractVerificationIds id = [id] := by
  have hstable : ∀ id ∈ extractVerificationIds t,
      id ≠ [] ∧ '\n' ∉ id ∧ trim id = id ∧ lineId id = id := by
    intro id hid
    rw [extract_eq, mem_firstOccurrences] at hid
    exact perLineIds_stable t id hid
  constructor
  · rw [extract_eq (join '\n' (extractVerificationIds t)), perLineIds_join _ hstable]
    apply firstOccurrences_of_nodup
    rw [extract_eq]
    exact firstOccurrences_nodup _
  · intro id hid
    rw [extract_eq id, perLineIds_single id (hstable id hid)]
    rfl

/-- C9, at an input with a URL line, a repeated identifier and a bare token. -/
theorem extractVerificationIds_idempotent_witness :
    "XYZ".toList ∈ extractVerificationIds "vid=ABC\nXYZ\n  ABC ".toList ∧
    extractVerificationIds "XYZ".toList = ["XYZ".toList] :=
  ⟨by decide,
    (extractVerificationIds_idempotent "vid=ABC\nXYZ\n  ABC ".toList).2 "XYZ".toList
      (by decide)⟩

/-- C1. Chunk-boundary invariance of the reading loop. What the loop does
depends only on the concatenation of the chunks: the handler calls and the
leftover buffer of any chunk sequence are those of the single chunk holding
the whole text, two chunk sequences with the same text give the same calls and
leftover, feeding `a` then `b` gives what feeding `a ++ b` gives, and the same
holds for the client state the real handlers build and for the outcome of
`startVerification` as a whole. Feeding `da` and then the
rest of the line `data: {"a":1}` leads to exactly one `handleSSEData` call,
whose payload is what `JSON.parse` makes of `{"a":1}`, and leaves an empty
buffer. -/
theorem readLoop_chunk_invariance (parse : Str → Option JVal) :
    (∀ chunks, streamCalls parse chunks = streamCalls parse [concat chunks]) ∧
    (∀ chunks chunks', concat chunks = concat chunks' →
      streamCalls parse chunks = streamCalls parse chunks') ∧
    (∀ a b, streamCalls parse [a, b] = streamCalls parse [a ++ b]) ∧
    (∀ (toText : JVal → Option Str) (chunks : List Str) (c : Client),
      readLoop parse (dispatch toText) chunks c
        = readLoop parse (dispatch toText) [concat chunks] c) ∧
    (∀ (toText : JVal → Option Str) (chunks : List Str) (ids : List Str) (c : Client),
      startVerification parse toText (streamWorld chunks) ids c
        = startVerification parse toText (streamWorld [concat chunks]) ids c) ∧
    streamCalls parse ["da".toList, "ta: \x7b\"a\":1\x7d\n".toList]
      = ([], match parse "\x7b\"a\":1\x7d".toList with
             | some payload => [SSECall.data payload]
             | none => []) ∧
    streamCalls sampleParse ["da".toList, "ta: \x7b\"a\":1\x7d\n".toList]
      = ([], [SSECall.data (.obj [("a".toList, .num (.finite 1))])]) := by
  have one : ∀ {σ : Type} (handle : SSECall → σ → σ) (chunks : List Str) (s : σ),
      readLoop parse handle chunks s = readLoop parse handle [concat chunks] s := by
    intro σ handle chunks s
    rw [readLoop_eq, readLoop_eq]
    simp [concat]
  refine ⟨fun chunks => one record chunks [], ?_, ?_, fun toText chunks c => one _ chunks c,
    ?_, ?_, ?_⟩
  · intro chunks chunks' h
    unfold streamCalls
    rw [one record chunks, one record chunks', h]
  · intro a b
    unfold streamCalls
    rw [one record [a, b]]
    simp [concat]
  · intro toText chunks ids c
    have ht : ∀ c', tryBlock parse toText (streamWorld chunks) ids c'
        = tryBlock parse toText (streamWorld [concat chunks]) ids c' := by
      intro c'
      have hg : getCsrfToken (streamWorld chunks) c'
          = getCsrfToken (streamWorld [concat chunks]) c' := rfl
      unfold tryBlock
      rw [hg]
      simp only [streamWorld, Bool.not_true, Bool.false_eq_true, if_false]
      rw [one (dispatch toText) chunks]
    unfold startVerification
    simp only [ht]
  · unfold streamCalls
    rw [readLoop_eq, processLines_record]
    have hl : completeLines (concat ["da".toList, "ta: \x7b\"a\":1\x7d\n".toList])
        = ["data: \x7b\"a\":1\x7d".toList] := by decide
    have hb : ((split '\n' (concat ["da".toList, "ta: \x7b\"a\":1\x7d\n".toList])).getLast?).getD []
        = [] := by decide
    rw [hl, hb]
    have hc : lineCall parse "data: \x7b\"a\":1\x7d".toList
        = match parse "\x7b\"a\":1\x7d".toList with
          | some payload => some (SSECall.data payload)
          | none => none := by
      unfold lineCall
      rw [if_pos (by decide)]
      rfl
    simp only [callsOf, List.filterMap_cons, List.filterMap_nil, List.nil_append, hc]
    cases parse "\x7b\"a\":1\x7d".toList <;> rfl
  · rfl

/-- C1, at two different cuts of the same stream text. -/
theorem readLoop_chunk_invariance_witness :
    concat ["da".toList, "ta: \x7b\"a\":1\x7d\n".toList]
      = concat ["data: \x7b".toList, "\"a\"".toList, ":1\x7d\n".toList] ∧
    streamCalls sampleParse ["da".toList, "ta: \x7b\"a\":1\x7d\n".toList]
      = streamCalls sampleParse ["data: \x7b".toList, "\"a\"".toList, ":1\x7d\n".toList] :=
  ⟨by decide, (readLoop_chunk_invariance sampleParse).2.1 _ _ (by decide)⟩

/-- C7. A malformed data line is skipped and the stream goes on. Let the
stream text hold, after a prefix `P` that is empty or ends with a newline, a
complete line `L` that starts with `data: ` and whose remainder `JSON.parse`
rejects. Then `L` leads to no handler call, and whatever the cut into chunks,
the loop ends in the same handler state and leftover buffer as on the text
without that line: the same calls are made, and the real handlers build the
same client state, result list included. -/
theorem malformed_data_line_skipped (parse : Str → Option JVal) (P L S : Str)
    (chunks chunks' : List Str)
    (hP : P = [] ∨ P.getLast? = some '\n') (hL : '\n' ∉ L)
    (hdata : "data: ".toList.isPrefixOf L = true) (hbad : parse (L.drop 6) = none)
    (h : concat chunks = P ++ (L ++ '\n' :: S)) (h' : concat chunks' = P ++ S) :
    lineCall parse L = none ∧
    streamCalls parse chunks = streamCalls parse chunks' ∧
    (∀ (toText : JVal → Option Str) (c : Client),
      readLoop parse (dispatch toText) chunks c = readLoop parse (dispatch toText) chunks' c) := by
  have hcall : lineCall parse L = none := by
    unfold lineCall
    rw [if_pos hdata, hbad]
  have hsplit1 : split '\n' (P ++ (L ++ '\n' :: S))
      = (split '\n' P).dropLast ++ L :: split '\n' S := by
    rw [split_append, split_terminated P hP, List.nil_append, split_append_sep '\n' L S hL]
  have hsplit2 : split '\n' (P ++ S) = (split '\n' P).dropLast ++ split '\n' S := by
    rw [split_append, split_terminated P hP, List.nil_append]
  have hne := split_ne_nil '\n' S
  have all : ∀ {σ : Type} (handle : SSECall → σ → σ) (s : σ),
      readLoop parse handle chunks s = readLoop parse handle chunks' s := by
    intro σ handle s
    rw [readLoop_eq, readLoop_eq, h, h']
    unfold completeLines
    rw [hsplit1, hsplit2, List.getLast?_append_of_ne_nil _ (by simp),
      List.getLast?_append_of_ne_nil _ hne, List.dropLast_append_of_ne_nil _ (by simp),
      List.dropLast_append_of_ne_nil _ hne, processLines_append, processLines_append]
    cases hS : split '\n' S with
    | nil => exact absurd hS hne
    | cons x xs =>
      have hstep : processLines parse handle (L :: (x :: xs).dropLast)
            (processLines parse handle (split '\n' P).dropLast s)
          = processLines parse handle (x :: xs).dropLast
              (processLines parse handle (split '\n' P).dropLast s) := by
        show processLines parse handle ((x :: xs).dropLast)
            (match lineCall parse L with
              | some call => handle call _
              | none => _) = _
        rw [hcall]
      have hd : (L :: x :: xs).dropLast = L :: (x :: xs).dropLast := rfl
      rw [hd, hstep]
      rfl
  exact ⟨hcall, all record [], fun toText c => all (dispatch toText) c⟩

/-- C7, at a stream with the line `data: {bad json` between two events. -/
theorem malformed_data_line_skipped_witness :
    streamCalls sampleParse ["event: start\ndata: \x7bbad".toList, " json\nevent: end\n".toList]
      = streamCalls sampleParse ["event: start\nevent: end\n".toList] :=
  (malformed_data_line_skipped sampleParse "event: start\n".toList "data: \x7bbad json".toList
    "event: end\n".toList ["event: start\ndata: \x7bbad".toList, " json\nevent: end\n".toList]
    ["event: start\nevent: end\n".toList]
    (Or.inr (by decide)) (by decide) (by decide) (by rfl) (by decide) (by decide)).2.1

/-- C2. Keyed replace of `addResult`. Take a result list whose identifiers are
pairwise distinct, an identifier compared by value (a string, as extraction
and the seeding produce; a number, boolean or `null` as well) and a non-empty
sequence of `addResult` calls with that identifier, `last` being the status and
message of the last call. If the identifier was present at index `i`, the
final list is the original one with the record at `i` replaced; if it was
absent, the final list is the original one with one record appended. Either
way the final list holds exactly one record for the identifier, with the
status and message of the last call, every other record is where it was and as
it was, and the identifiers are still pairwise distinct. -/
theorem addResult_keyed_replace (c : Client) (id : JVal) (calls : List (Str × JVal))
    (last : Str × JVal) (hid : strictEq id id = true) (hd : Distinct (idsOf c.state.results))
    (hl : calls.getLast? = some last) :
    (∀ (i : Nat) (r : ResultRecord), c.state.results[i]? = some r → strictEq r.id id = true →
      (addResults id calls c).state.results = c.state.results.set i ⟨id, last.1, last.2⟩) ∧
    ((∀ r ∈ c.state.results, strictEq r.id id = false) →
      (addResults id calls c).state.results = c.state.results ++ [⟨id, last.1, last.2⟩]) ∧
    (addResults id calls c).state.results.countP (fun r => strictEq r.id id) = 1 ∧
    (∀ (j : Nat) (r : ResultRecord), c.state.results[j]? = some r → strictEq r.id id = false →
      (addResults id calls c).state.results[j]? = some r) ∧
    Distinct (idsOf (addResults id calls c).state.results) := by
  have hcount : ∀ rs : List ResultRecord,
      rs.countP (fun r => strictEq r.id id) = (idsOf rs).countP (fun b => strictEq b id) := by
    intro rs
    unfold idsOf
    rw [List.countP_map]
    rfl
  cases hfi : findIndex c.state.results id with
  | none =>
    have hnone := (findIndex_none_iff _ _).1 hfi
    have hafter := addResults_absent id calls last c hl hid hfi
    refine ⟨?_, fun _ => hafter, ?_, ?_, ?_⟩
    · intro i r hi hr
      rw [hnone r (List.getElem?_mem hi)] at hr
      exact absurd hr (by simp)
    · rw [hafter, List.countP_append, List.countP_eq_zero.2 (by simpa using hnone)]
      simp [List.countP_cons, hid]
    · intro j r hj _
      rw [hafter, List.getElem?_append_left (List.getElem?_eq_some.1 hj).1]
      exact hj
    · rw [hafter]
      unfold Distinct idsOf
      rw [List.map_append, List.pairwise_append]
      refine ⟨hd, by simp, ?_⟩
      intro a ha b hb
      simp only [List.map_cons, List.map_nil, List.mem_singleton] at hb
      subst hb
      obtain ⟨r, hr, rfl⟩ := List.mem_map.1 ha
      exact hnone r hr
  | some i =>
    obtain ⟨r0, hi0, hr0, _⟩ := findIndex_some _ _ _ hfi
    have e0 : r0.id = id := strictEq_eq _ _ hr0
    have hafter := addResults_present id calls last c i hl hfi
    have hids : idsOf (addResults id calls c).state.results = idsOf c.state.results := by
      rw [hafter, ← e0]
      exact idsOf_set _ _ _ _ _ hi0
    refine ⟨?_, ?_, ?_, ?_, ?_⟩
    · intro i' r hi hr
      have := findIndex_of_distinct _ _ _ _ hd hi hr
      rw [hfi] at this
      rw [← Option.some.inj this]
      exact hafter
    · intro hall
      rw [hall r0 (List.getElem?_mem hi0)] at hr0
      exact absurd hr0 (by simp)
    · rw [hcount, hids]
      exact countP_one _ id r0.id hd (List.mem_map.2 ⟨r0, List.getElem?_mem hi0, rfl⟩) hr0
    · intro j r hj hr
      have hne : i ≠ j := by
        rintro rfl
        rw [hi0] at hj
        rw [Option.some.inj hj, hr] at hr0
        exact absurd hr0 (by simp)
      rw [hafter, List.getElem?_set_ne hne]
      exact hj
    · rw [hids]
      exact hd

/-- C2, at the list `A`, `B` and three calls for `A`: the record of `A` stays
first and carries the last status and message. -/
theorem addResult_keyed_replace_witness :
    (addResults (.str "A".toList)
        [("processing".toList, .str "p".toList), ("error".toList, .str "e".toList),
          ("success".toList, .str "done".toList)]
        (clientWith [⟨.str "A".toList, "processing".toList, .str "处理中...".toList⟩,
          ⟨.str "B".toList, "processing".toList, .str "处理中...".toList⟩])).state.results
      = [⟨.str "A".toList, "success".toList, .str "done".toList⟩,
          ⟨.str "B".toList, "processing".toList, .str "处理中...".toList⟩] :=
  (addResult_keyed_replace
    (clientWith [⟨.str "A".toList, "processing".toList, .str "处理中...".toList⟩,
      ⟨.str "B".toList, "processing".toList, .str "处理中...".toList⟩])
    (.str "A".toList)
    [("processing".toList, .str "p".toList), ("error".toList, .str "e".toList),
      ("success".toList, .str "done".toList)]
    ("success".toList, .str "done".toList) (by decide)
    (by simp [Distinct, idsOf, clientWith, strictEq]) rfl).1 0
    ⟨.str "A".toList, "processing".toList, .str "处理中...".toList⟩ rfl (by decide)

/-- C6. Only identifier-carrying data payloads touch the result set.
`handleSSEEvent` leaves `state`, the result list included, and the rendered
list as they are, whatever the event type; so does `handleSSEData` on every
payload whose `verificationId` is absent (or otherwise falsy), such as quota
counters, batch totals and completion counts. In the scenario, a batch `A`,
`B` whose stream is `event: start`, the data line for `A` with step `success`,
the data line with `current_quota` 5 and `event: end` ends with the result list
`A` success, `B` processing, in that order, and the quota text shows 5. -/
theorem results_touched_only_by_identified_data :
    (∀ (eventType : Str) (c : Client),
      (handleSSEEvent eventType c).state = c.state ∧
      (handleSSEEvent eventType c).dom.resultsView = c.dom.resultsView ∧
      (handleSSEEvent eventType c).dom.renderCount = c.dom.renderCount) ∧
    (∀ (toText : JVal → Option Str) (data : JVal) (c : Client),
      truthy (prop data "verificationId".toList) = false →
      (handleSSEData toText data c).1.state = c.state ∧
      (handleSSEData toText data c).1.dom.resultsView = c.dom.resultsView ∧
      (handleSSEData toText data c).1.dom.renderCount = c.dom.renderCount) ∧
    (∀ (data : JVal) (key : Str), isNullish data = true ∨ prop data key = .undefined →
      truthy (prop data key) = false) ∧
    (startVerification sampleParse sampleText
      (streamWorld ["event: start\ndata: \x7b\"verificationId\":\"A\",\"currentStep\":\"success\"\x7d\n".toList,
        "data: \x7b\"current_quota\":5\x7d\nevent: end\n".toList])
      ["A".toList, "B".toList] (freshClient "key".toList)).1.state.results
      = [⟨.str "A".toList, "success".toList, .str "success".toList⟩,
          ⟨.str "B".toList, "processing".toList, .str "处理中...".toList⟩] ∧
    (startVerification sampleParse sampleText
      (streamWorld ["event: start\ndata: \x7b\"verificationId\":\"A\",\"currentStep\":\"success\"\x7d\n".toList,
        "data: \x7b\"current_quota\":5\x7d\nevent: end\n".toList])
      ["A".toList, "B".toList] (freshClient "key".toList)).1.dom.quotaInfo
      = some "配额: 5".toList := by
  refine ⟨?_, ?_, ?_, ?_, ?_⟩
  · intro eventType c
    unfold handleSSEEvent
    split
    · exact ⟨rfl, rfl, rfl⟩
    · split <;> exact ⟨rfl, rfl, rfl⟩
  · intro toText data c hid
    obtain ⟨h1, h2, h3⟩ := handleSSEData_core toText data c
    have hrb : resultBlock data c = c := by
      unfold resultBlock
      rw [if_neg (by rw [hid]; decide)]
    rw [hrb] at h1 h2 h3
    exact ⟨h1, h3, h2⟩
  · intro data key h
    rcases h with h | h
    · rw [prop_nullish data key h]
      rfl
    · rw [h]
      rfl
  · rfl
  · rfl

/-- C6, at the quota payload of the scenario applied to a list of two
records. -/
theorem results_touched_only_by_identified_data_witness :
    (handleSSEData sampleText (.obj [("current_quota".toList, .num (.finite 5))])
      (clientWith [⟨.str "A".toList, "success".toList, .str "success".toList⟩,
        ⟨.str "B".toList, "processing".toList, .str "处理中...".toList⟩])).1.state.results
      = [⟨.str "A".toList, "success".toList, .str "success".toList⟩,
          ⟨.str "B".toList, "processing".toList, .str "处理中...".toList⟩] :=
  congrArg State.results
    (results_touched_only_by_identified_data.2.1 sampleText
      (.obj [("current_quota".toList, .num (.finite 5))])
      (clientWith [⟨.str "A".toList, "success".toList, .str "success".toList⟩,
        ⟨.str "B".toList, "processing".toList, .str "处理中...".toList⟩])
      (by decide)).1

/-- C10. Entry guard of `startVerification`. When no API key is configured, or
when the identifier list is empty, `startVerification` issues no request
(neither the token fetch nor the batch POST) and changes nothing but for one
alert: `state` is the same, so the result list is identical, `isProcessing`
stays false and no abort controller is installed, the document and the token
cache are the same, and the reading loop is never entered. With a key and one
identifier, by contrast, both requests are issued. -/
theorem startVerification_entry_guard (parse : Str → Option JVal)
    (toText : JVal → Option Str) (w : World) (ids : List Str) (c : Client)
    (h : c.state.apiKey = [] ∨ ids = []) :
    (startVerification parse toText w ids c).1.requests = c.requests ∧
    (startVerification parse toText w ids c).1.state = c.state ∧
    (startVerification parse toText w ids c).1.state.results = c.state.results ∧
    (c.state.isProcessing = false →
      (startVerification parse toText w ids c).1.state.isProcessing = false) ∧
    (c.state.abortController = false →
      (startVerification parse toText w ids c).1.state.abortController = false) ∧
    (startVerification parse toText w ids c).1.dom = c.dom ∧
    (startVerification parse toText w ids c).1.csrfToken = c.csrfToken ∧
    (startVerification parse toText w ids c).1.csrfTokenTime = c.csrfTokenTime ∧
    (∃ text, (startVerification parse toText w ids c).1.alerts = c.alerts ++ [text]) ∧
    (startVerification parse toText w ids c).2 = [] ∧
    (startVerification sampleParse sampleText (streamWorld []) ["A".toList]
      (freshClient "key".toList)).1.requests
      = [Request.getUpstream, Request.postBatch [] "key".toList ["A".toList]] := by
  have hcases : (startVerification parse toText w ids c)
      = ({ c with alerts := c.alerts ++ ["请先设置 API Key".toList] }, []) ∨
      (startVerification parse toText w ids c)
      = ({ c with alerts := c.alerts ++ ["请输入验证 ID".toList] }, []) := by
    unfold startVerification
    by_cases hkey : c.state.apiKey = []
    · left
      rw [if_pos (by rw [hkey]; rfl)]
    · right
      have hids : ids = [] := h.resolve_left hkey
      have hk : ¬ ((!truthyStr c.state.apiKey) = true) := by
        cases hs : c.state.apiKey with
        | nil => exact absurd hs hkey
        | cons _ _ => simp [truthyStr]
      rw [if_neg hk, if_pos (by rw [hids]; rfl)]
  rcases hcases with e | e <;> rw [e] <;>
    exact ⟨rfl, rfl, rfl, fun h => h, fun h => h, rfl, rfl, rfl, ⟨_, rfl⟩, rfl, rfl⟩

/-- C10, at a client without API key and a batch of two identifiers. -/
theorem startVerification_entry_guard_witness :
    (startVerification sampleParse sampleText (streamWorld ["event: start\n".toList])
      ["A".toList, "B".toList] (freshClient [])).1.requests = [] :=
  (startVerification_entry_guard sampleParse sampleText (streamWorld ["event: start\n".toList])
    ["A".toList, "B".toList] (freshClient []) (Or.inl rfl)).1

end BatchVerify
